import Mathlib

/- Shallow embedding of src/sorting_tools.py (a Python 2 module).

   The functions natural_sort, sort_subsort, check_types and quicksort are
   translated from the source.  Python 2 particulars that the source relies
   on are modelled explicitly:

   * CPython 2 compares objects of different built-in types by type name,
     so an int sorts before a list, and a list before a str.  The key
     objects produced by alphanum_key are therefore modelled by PyKey
     (either the int 0 sentinel or a list of PyVal), and PyVal is either
     an int or a str, with the cross-type ordering made explicit.
   * Python's sorted() is a stable sort; it is modelled by a stable
     insertion sort on precomputed keys.
   * list indexing accepts negative indices (counting from the end) and
     raises IndexError otherwise; this is pyIndex, returning Option.
   * xrange(a, b) enumerates the integers from a up to b - 1 and is empty
     when a >= b; this is intRange.
   * an uncaught AttributeError (from calling .split on a list) is
     modelled by the Except error value PyErr.attributeError.  -/

namespace SortingTools

/-- Python list indexing: a negative index counts from the end; an index
that is still out of range gives none (IndexError). -/
def pyIndex {α : Type} (l : List α) (i : Int) : Option α :=
  let j : Int := if i < 0 then i + l.length else i
  if 0 ≤ j then l.get? j.toNat else none

/-- The integers from a up to n - 1 (xrange(a, n) for an int a and a
natural bound n); empty when a ≥ n. -/
def intRange (a : Int) (n : Nat) : List Int :=
  (List.range ((n : Int) - a).toNat).map (fun (i : Nat) => a + (i : Int))

/-- Maximal runs of digit and of non-digit characters, in order: the
non-empty pieces produced by re.split("([0-9]+)", s) in natural_sort's
split helper. -/
def chunkRuns : List Char → List (List Char)
  | [] => []
  | c :: cs =>
    match chunkRuns cs with
    | [] => [[c]]
    | [] :: rs => [c] :: rs
    | (d :: ds) :: rs =>
      if c.isDigit == d.isDigit then (c :: d :: ds) :: rs
      else [c] :: (d :: ds) :: rs

/-- string_tools.strip_non_alphanumeric: remove every character that is
not an ASCII letter or digit (the source deletes all non-alphanumeric
byte values from the byte string). -/
def strip_non_alphanumeric (s : String) : String :=
  String.mk (s.toList.filter Char.isAlphanum)

/-- Python str.isdigit for byte strings: non-empty and all ASCII digits. -/
def pyIsDigit (cs : List Char) : Bool :=
  !cs.isEmpty && cs.all Char.isDigit

/-- Python int() on a digit string. -/
def digitsToNat (cs : List Char) : Nat :=
  cs.foldl (fun a c => a * 10 + (c.toNat - 48)) 0

/-- A typed subtoken: the convert helper of natural_sort turns a digit
run into an int and any other run into a lower-cased str. -/
inductive PyVal : Type where
  | int (n : Int)
  | str (s : String)
deriving DecidableEq, Repr

/-- natural_sort's convert helper on one subtoken run. -/
def convert (run : List Char) : PyVal :=
  if pyIsDigit run then PyVal.int (digitsToNat run)
  else PyVal.str (String.mk (run.map Char.toLower))

/-- A key returned by alphanum_key: either the integer 0 sentinel (the
IndexError fallback) or a list of typed subtokens. -/
inductive PyKey : Type where
  | int (n : Int)
  | list (l : List PyVal)
deriving DecidableEq, Repr

/-- CPython 2 lexicographic comparison of two sequences with respect to
a strict comparison of the elements: a proper prefix is smaller, and the
first position where the elements compare strictly decides. -/
def lexLt {α : Type} (lt : α → α → Bool) : List α → List α → Bool
  | _, [] => false
  | [], _ :: _ => true
  | a :: as, b :: bs =>
    if lt a b then true else if lt b a then false else lexLt lt as bs

/-- The CPython 2 strict comparison of two byte characters. -/
def charLt (a b : Char) : Bool := decide (a < b)

/-- CPython 2 comparison of two subtoken values.  An int compares less
than a str because Python 2 orders objects of different types by type
name ("int" < "str"); two strs compare byte-wise lexicographically. -/
def pvLt : PyVal → PyVal → Bool
  | PyVal.int a, PyVal.int b => decide (a < b)
  | PyVal.int _, PyVal.str _ => true
  | PyVal.str _, PyVal.int _ => false
  | PyVal.str a, PyVal.str b => lexLt charLt a.toList b.toList

/-- CPython 2 comparison of two alphanum_key results.  The int 0 sentinel
compares less than every list key ("int" < "list"). -/
def keyLt : PyKey → PyKey → Bool
  | PyKey.int a, PyKey.int b => decide (a < b)
  | PyKey.int _, PyKey.list _ => true
  | PyKey.list _, PyKey.int _ => false
  | PyKey.list a, PyKey.list b => lexLt pvLt a b

/-- Insert a in front of the first element whose key is not strictly
below a's key; used by the stable sort modelling Python's sorted(). -/
def insertSorted {α κ : Type} (lt : κ → κ → Bool) (keyf : α → κ) (a : α) :
    List α → List α
  | [] => [a]
  | b :: l =>
    if lt (keyf b) (keyf a) then b :: insertSorted lt keyf a l
    else a :: b :: l

/-- Stable insertion sort by a key function: the model of Python's
sorted(xs, key=keyf) with the strict comparison lt on keys. -/
def sortByKey {α κ : Type} (lt : κ → κ → Bool) (keyf : α → κ) :
    List α → List α
  | [] => []
  | a :: l => insertSorted lt keyf a (sortByKey lt keyf l)

/-- The subtoken_list built inside alphanum_key for one field: strip the
non-alphanumeric characters, cut into maximal digit/non-digit runs, and
convert each run. -/
def subtokenList (field : String) : List PyVal :=
  (chunkRuns (strip_non_alphanumeric field).toList).map convert

/-- Read the elements of sl at the given Python indices, propagating an
IndexError (none) from any of them: the list comprehension
[subtoken_list[s] for s in temp_list]. -/
def readIndices (sl : List PyVal) : List Int → Option (List PyVal)
  | [] => some []
  | i :: is =>
    match pyIndex sl i with
    | none => none
    | some v =>
      match readIndices sl is with
      | none => none
      | some vs => some (v :: vs)

/-- natural_sort's alphanum_key closure over a record of string fields.
An out-of-range field index pos returns the int 0 sentinel (the caught
IndexError).  Otherwise the subtoken_list of the field is built.  With
subtoken = none the xrange call raises TypeError, caught to return the
full typed list; with an integer subtoken the indices
subtoken .. len-1 are read back through Python indexing, and a very
negative subtoken whose first index raises IndexError is caught to
return the full typed list as well. -/
def alphanum_key (pos : Int) (subtoken : Option Int) (key : List String) :
    PyKey :=
  match pyIndex key pos with
  | none => PyKey.int 0
  | some field =>
    match subtoken with
    | none => PyKey.list (subtokenList field)
    | some st =>
      match readIndices (subtokenList field)
          (intRange st (subtokenList field).length) with
      | some vals => PyKey.list vals
      | none => PyKey.list (subtokenList field)

/-- natural_sort on a list of records of string fields: a stable sort
by the alphanum_key of the field at index pos. -/
def natural_sort (list_ : List (List String)) (pos : Int)
    (subtoken : Option Int) : List (List String) :=
  sortByKey keyLt (alphanum_key pos subtoken) list_

/-- A member of the list passed to sort_subsort: either a delimited
string or a pre-tokenized list of string tokens. -/
inductive Rec : Type where
  | str (s : String)
  | toks (ts : List String)
deriving DecidableEq, Repr

/-- An uncaught Python exception escaping sort_subsort. -/
inductive PyErr : Type where
  | attributeError
deriving DecidableEq, Repr

/-- A member of the sort_map argument: an int index or a tuple of ints. -/
inductive SMapEntry : Type where
  | int (n : Int)
  | tup (ts : List Int)
deriving DecidableEq, Repr

/-- check_types' one-level flattening of list_: a member that is a list
contributes its elements, any other member contributes itself.  With
records limited to strings and lists of string tokens every collected
atom is a string. -/
def flatAtoms : List Rec → List String
  | [] => []
  | Rec.str s :: rest => s :: flatAtoms rest
  | Rec.toks ts :: rest => ts ++ flatAtoms rest

/-- check_types(list_, basestring): every flattened atom is a string.
Because the one-level flattening turns a list of token lists into its
string tokens, this check also accepts pre-tokenized input, which is
what sends such input into the string branch of sort_subsort. -/
def check_types_str (l : List Rec) : Bool :=
  (flatAtoms l).all (fun _ => true)

/-- check_types(list_, list): every flattened atom is a list.  The
flattening has already replaced each token list by its string elements,
so this is the test that a string atom is a list, which fails; the
tokenized branch of sort_subsort is therefore unreachable. -/
def check_types_list (l : List Rec) : Bool :=
  (flatAtoms l).all (fun _ => false)

/-- isinstance(e, int) for a sort_map entry. -/
def entryIsInt : SMapEntry → Bool
  | SMapEntry.int _ => true
  | SMapEntry.tup _ => false

/-- isinstance(e, tuple) for a sort_map entry. -/
def entryIsTup : SMapEntry → Bool
  | SMapEntry.int _ => false
  | SMapEntry.tup _ => true

/-- len(t) == 2 for the tuples of sort_map (trivially true on an int,
which cannot occur under the all-tuples check). -/
def entryLenOk : SMapEntry → Bool
  | SMapEntry.tup ts => ts.length == 2
  | SMapEntry.int _ => true

/-- The (t, 0) normalization of an int sort_map entry; the tuple arm is
unreachable under the all-ints check. -/
def intEntryPair : SMapEntry → Int × Int
  | SMapEntry.int n => (n, 0)
  | SMapEntry.tup _ => (0, 0)

/-- The (t[0], t[1]) reading of a tuple sort_map entry; the fallback arm
is unreachable under the all-tuples and length-two checks. -/
def tupEntryPair : SMapEntry → Int × Int
  | SMapEntry.tup (p :: s :: _) => (p, s)
  | _ => (0, 0)

/-- The sort_map validation and normalization block of sort_subsort:
a list of ints gains subtoken index 0; a list of tuples must have only
pairs; anything else (or a tuple of the wrong length) is the logged
degrade case, modelled as none. -/
def normalize_sort_map (sm : List SMapEntry) : Option (List (Int × Int)) :=
  if sm.all entryIsInt then some (sm.map intEntryPair)
  else if sm.all entryIsTup then
    if sm.all entryLenOk then some (sm.map tupEntryPair)
    else none
  else none

/-- Python str.split with a one-character separator: all pieces between
occurrences of the separator, empty pieces kept. -/
def splitChar (d : Char) : List Char → List (List Char)
  | [] => [[]]
  | c :: cs =>
    match splitChar d cs with
    | [] => [[c]]
    | p :: ps => if c = d then [] :: p :: ps else (c :: p) :: ps

/-- line.split(delimiter) on a string record. -/
def pySplit (d : Char) (s : String) : List String :=
  (splitChar d s.toList).map String.mk

/-- Python's sep.join for a one-character separator, at the character
level; used to state what pySplit produces. -/
def joinChar (d : Char) : List (List Char) → List Char
  | [] => []
  | [p] => p
  | p :: q :: ps => p ++ d :: joinChar d (q :: ps)

/-- The final ",".join(line) of sort_subsort: the rejoin separator is a
comma regardless of the delimiter argument. -/
def joinComma (ts : List String) : String :=
  String.intercalate "," ts

/-- The list comprehension [line.split(delimiter) for line in list_]:
splits every string record; reaching a token-list record is the
uncaught AttributeError of .split on a list, modelled as none. -/
def splitAll (d : Char) : List Rec → Option (List (List String))
  | [] => some []
  | Rec.str s :: rest =>
    match splitAll d rest with
    | none => none
    | some ls => some (pySplit d s :: ls)
  | Rec.toks _ :: _ => none

/-- Append line to the group stored under key k, or create the group at
the end: one sub_lists[line[pre_p]].append(line) step.  The source's
LastUpdatedOrderedDict only reorders on reassignment of an existing key,
which sort_subsort never does, so insertion order is first-seen order. -/
def addToGroups (k : String) (line : List String) :
    List (String × List (List String)) → List (String × List (List String))
  | [] => [(k, [line])]
  | (k2, g) :: rest =>
    if k2 = k then (k2, g ++ [line]) :: rest
    else (k2, g) :: addToGroups k line rest

/-- The grouping loop of sort_subsort: walk current_sort, appending each
line to the group of its raw field value at index pre_p; an IndexError
on line[pre_p] aborts the whole sort (none). -/
def buildGroupsAux (prep : Int) (acc : List (String × List (List String))) :
    List (List String) → Option (List (String × List (List String)))
  | [] => some acc
  | line :: rest =>
    match pyIndex line prep with
    | none => none
    | some v => buildGroupsAux prep (addToGroups v line acc) rest

/-- Build the insertion-ordered groups of current_sort keyed by the raw
value of the field at index pre_p. -/
def buildGroups (prep : Int) (cur : List (List String)) :
    Option (List (String × List (List String))) :=
  buildGroupsAux prep [] cur

/-- The remaining iterations of sort_subsort's sort_map loop after the
first: group current_sort by the previous primary index, naturally sort
each group by the current level, and concatenate the groups in
first-seen order; none models the IndexError return of the original
list. -/
def cascadeAux (cur : List (List String)) (prep : Int) :
    List (Int × Int) → Option (List (List String))
  | [] => some cur
  | (p, s) :: rest =>
    match buildGroups prep cur with
    | none => none
    | some gs =>
      cascadeAux ((gs.map (fun e => natural_sort e.2 p (some s))).flatten)
        p rest

/-- The whole sort_map loop of sort_subsort: the first level is a plain
natural sort, each later level regroups on the previous level's field
and re-sorts inside the groups. -/
def cascade (cur : List (List String)) :
    List (Int × Int) → Option (List (List String))
  | [] => some cur
  | (p, s) :: rest => cascadeAux (natural_sort cur p (some s)) p rest

/-- The sequence of previous-primary field indices on which cascadeAux
actually groups, starting from pre_p: each level except the last
contributes the grouping field used by the level after it. -/
def gfields (prep : Int) : List (Int × Int) → List Int
  | [] => []
  | (p, _) :: rest => prep :: gfields p rest

/-- sort_subsort together with the final state of its list_ argument
(the argument is mutated by list_.pop(0) when header is true).  The
first component is the returned value or the uncaught AttributeError
raised when a token-list record reaches line.split; the second component
is the argument after the call.  The two trailing branches mirror the
tokenized branch and the heterogeneous-input degrade branch of the
source; both return list_, and both are unreachable here because
check_types_str is always true in this model (every flattened atom is a
string). -/
def sort_subsort_state (list_ : List Rec) (sort_map : List SMapEntry)
    (header : Bool) (delimiter : Char) :
    Except PyErr (List Rec) × List Rec :=
  match list_ with
  | [] => (Except.ok [], [])
  | r0 :: rest =>
    let working : List Rec := if header then rest else r0 :: rest
    let hdr : List Rec := if header then [r0] else []
    if check_types_str working then
      match splitAll delimiter working with
      | none => (Except.error PyErr.attributeError, working)
      | some current0 =>
        match normalize_sort_map sort_map with
        | none => (Except.ok working, working)
        | some levels =>
          match cascade current0 levels with
          | none => (Except.ok working, working)
          | some final =>
            (Except.ok (hdr ++ final.map (fun ts => Rec.str (joinComma ts))),
             working)
    else if check_types_list working then
      (Except.ok working, working)
    else
      (Except.ok working, working)

/-- sort_subsort's return value. -/
def sort_subsort (list_ : List Rec) (sort_map : List SMapEntry)
    (header : Bool) (delimiter : Char) : Except PyErr (List Rec) :=
  (sort_subsort_state list_ sort_map header delimiter).1

/-- The quicksort of sorting_tools: first element as pivot, three-way
partition of the whole list by the element-type order, recursion on the
strict partitions; a list of length at most one is returned as is. -/
def quicksort (list_ : List Int) : List Int :=
  match list_ with
  | [] => []
  | [x] => [x]
  | x :: y :: rest =>
    quicksort ((x :: y :: rest).filter (fun z => decide (z < x)))
      ++ (x :: y :: rest).filter (fun z => decide (z = x))
      ++ quicksort ((x :: y :: rest).filter (fun z => decide (x < z)))
termination_by list_.length
decreasing_by
  · have h := List.length_filter_le (fun z => decide (z < x)) (y :: rest)
    simp [List.filter_cons] at h ⊢
    omega
  · have h := List.length_filter_le (fun z => decide (x < z)) (y :: rest)
    simp [List.filter_cons] at h ⊢
    omega

/-! Order-theoretic facts about the embedded CPython 2 comparisons. -/

theorem lexLt_irrefl {α : Type} (lt : α → α → Bool)
    (hirr : ∀ a, lt a a = false) : ∀ l, lexLt lt l l = false
  | [] => rfl
  | a :: as => by simp [lexLt, hirr a, lexLt_irrefl lt hirr as]

theorem lexLt_trans {α : Type} (lt : α → α → Bool)
    (htr : ∀ a b c, lt a b = true → lt b c = true → lt a c = true)
    (hco : ∀ a b, lt a b = false → lt b a = false → a = b) :
    ∀ as bs cs, lexLt lt as bs = true → lexLt lt bs cs = true →
      lexLt lt as cs = true
  | _, bs, [] => by
    intro _ h2
    cases bs <;> simp [lexLt] at h2
  | as, [], _ :: _ => by
    intro h1 _
    cases as <;> simp [lexLt] at h1
  | [], _ :: _, _ :: _ => by
    intro _ _
    simp [lexLt]
  | a :: as, b :: bs, c :: cs => by
    intro h1 h2
    simp only [lexLt] at h1 h2 ⊢
    cases hab : lt a b with
    | true =>
      cases hbc : lt b c with
      | true => rw [if_pos (htr a b c hab hbc)]
      | false =>
        cases hcb : lt c b with
        | true => rw [hbc, hcb] at h2; simp at h2
        | false =>
          have he := hco b c hbc hcb
          subst he
          rw [if_pos hab]
    | false =>
      rw [hab] at h1
      simp only [Bool.false_eq_true, if_false] at h1
      cases hba : lt b a with
      | true => rw [hba] at h1; simp at h1
      | false =>
        rw [hba] at h1
        simp only [Bool.false_eq_true, if_false] at h1
        have he := hco a b hab hba
        subst he
        cases hac : lt a c with
        | true => simp
        | false =>
          rw [hac] at h2
          simp only [Bool.false_eq_true, if_false] at h2
          cases hca : lt c a with
          | true => rw [hca] at h2; simp at h2
          | false =>
            rw [hca] at h2
            simp only [Bool.false_eq_true, if_false] at h2
            rw [if_neg (by simp [hac]), if_neg (by simp [hca])]
            exact lexLt_trans lt htr hco as bs cs h1 h2

theorem lexLt_conn {α : Type} (lt : α → α → Bool)
    (hco : ∀ a b, lt a b = false → lt b a = false → a = b) :
    ∀ as bs, lexLt lt as bs = false → lexLt lt bs as = false → as = bs
  | [], [] => by intro _ _; rfl
  | [], _ :: _ => by intro h1 _; simp [lexLt] at h1
  | _ :: _, [] => by intro _ h2; simp [lexLt] at h2
  | a :: as, b :: bs => by
    intro h1 h2
    simp only [lexLt] at h1 h2
    cases hab : lt a b with
    | true => rw [hab] at h1; simp at h1
    | false =>
      cases hba : lt b a with
      | true => rw [hba] at h2; simp at h2
      | false =>
        rw [hab, hba] at h1 h2
        simp only [Bool.false_eq_true, if_false] at h1 h2
        rw [hco a b hab hba, lexLt_conn lt hco as bs h1 h2]

theorem charLt_irrefl (a : Char) : charLt a a = false := by
  simp [charLt]

theorem charLt_trans (a b c : Char) (h1 : charLt a b = true)
    (h2 : charLt b c = true) : charLt a c = true := by
  simp only [charLt, decide_eq_true_eq] at h1 h2 ⊢
  exact lt_trans h1 h2

theorem charLt_conn (a b : Char) (h1 : charLt a b = false)
    (h2 : charLt b a = false) : a = b := by
  simp only [charLt, decide_eq_false_iff_not] at h1 h2
  exact le_antisymm (le_of_not_lt h2) (le_of_not_lt h1)

theorem string_toList_inj (a b : String) (h : a.toList = b.toList) :
    a = b := by
  cases a
  cases b
  exact congrArg String.mk (by simpa [String.toList] using h)

theorem pvLt_irrefl : ∀ v, pvLt v v = false
  | PyVal.int _ => by simp [pvLt]
  | PyVal.str s => lexLt_irrefl charLt charLt_irrefl s.toList

theorem pvLt_trans : ∀ a b c, pvLt a b = true → pvLt b c = true →
    pvLt a c = true
  | PyVal.int _, PyVal.int _, PyVal.int _ => by
    simp only [pvLt, decide_eq_true_eq]
    intro h1 h2
    omega
  | PyVal.int _, PyVal.int _, PyVal.str _ => by intro _ _; rfl
  | PyVal.int _, PyVal.str _, PyVal.str _ => by intro _ _; rfl
  | PyVal.int _, PyVal.str _, PyVal.int _ => by
    intro _ h2; simp [pvLt] at h2
  | PyVal.str _, PyVal.int _, _ => by
    intro h1 _; simp [pvLt] at h1
  | PyVal.str _, PyVal.str _, PyVal.int _ => by
    intro _ h2; simp [pvLt] at h2
  | PyVal.str a, PyVal.str b, PyVal.str c => fun h1 h2 =>
    lexLt_trans charLt charLt_trans charLt_conn a.toList b.toList c.toList
      h1 h2

theorem pvLt_conn : ∀ a b, pvLt a b = false → pvLt b a = false → a = b
  | PyVal.int x, PyVal.int y => by
    simp only [pvLt, decide_eq_false_iff_not]
    intro h1 h2
    have hxy : x = y := by omega
    rw [hxy]
  | PyVal.int _, PyVal.str _ => by intro h _; simp [pvLt] at h
  | PyVal.str _, PyVal.int _ => by intro _ h; simp [pvLt] at h
  | PyVal.str a, PyVal.str b => fun h1 h2 => by
    rw [string_toList_inj a b
      (lexLt_conn charLt charLt_conn a.toList b.toList h1 h2)]

theorem keyLt_irrefl : ∀ k, keyLt k k = false
  | PyKey.int _ => by simp [keyLt]
  | PyKey.list l => lexLt_irrefl pvLt pvLt_irrefl l

theorem keyLt_trans : ∀ a b c, keyLt a b = true → keyLt b c = true →
    keyLt a c = true
  | PyKey.int _, PyKey.int _, PyKey.int _ => by
    simp only [keyLt, decide_eq_true_eq]
    intro h1 h2
    omega
  | PyKey.int _, PyKey.int _, PyKey.list _ => by intro _ _; rfl
  | PyKey.int _, PyKey.list _, PyKey.list _ => by intro _ _; rfl
  | PyKey.int _, PyKey.list _, PyKey.int _ => by
    intro _ h2; simp [keyLt] at h2
  | PyKey.list _, PyKey.int _, _ => by
    intro h1 _; simp [keyLt] at h1
  | PyKey.list _, PyKey.list _, PyKey.int _ => by
    intro _ h2; simp [keyLt] at h2
  | PyKey.list a, PyKey.list b, PyKey.list c => fun h1 h2 =>
    lexLt_trans pvLt pvLt_trans pvLt_conn a b c h1 h2

theorem keyLt_conn : ∀ a b, keyLt a b = false → keyLt b a = false → a = b
  | PyKey.int x, PyKey.int y => by
    simp only [keyLt, decide_eq_false_iff_not]
    intro h1 h2
    have hxy : x = y := by omega
    rw [hxy]
  | PyKey.int _, PyKey.list _ => by intro h _; simp [keyLt] at h
  | PyKey.list _, PyKey.int _ => by intro _ h; simp [keyLt] at h
  | PyKey.list a, PyKey.list b => fun h1 h2 => by
    rw [lexLt_conn pvLt pvLt_conn a b h1 h2]

theorem keyLt_asymm (a b : PyKey) (h : keyLt a b = true) :
    keyLt b a = false := by
  cases hba : keyLt b a with
  | false => rfl
  | true => rw [← keyLt_irrefl a, keyLt_trans a b a h hba]

theorem keyLt_chain (a b c : PyKey) (h : keyLt a c = true) :
    keyLt a b = true ∨ keyLt b c = true := by
  cases hab : keyLt a b with
  | true => exact Or.inl rfl
  | false =>
    cases hba : keyLt b a with
    | true => exact Or.inr (keyLt_trans b a c hba h)
    | false => exact Or.inr (keyLt_conn a b hab hba ▸ h)

/-! Facts about the stable insertion sort modelling Python's sorted(). -/

theorem mem_insertSorted {α κ : Type} (lt : κ → κ → Bool) (keyf : α → κ)
    (a x : α) : ∀ l, x ∈ insertSorted lt keyf a l → x = a ∨ x ∈ l
  | [] => by simp [insertSorted]
  | b :: l => by
    simp only [insertSorted]
    split
    · intro hx
      cases List.mem_cons.mp hx with
      | inl h => exact Or.inr (by rw [h]; exact List.mem_cons_self b l)
      | inr h =>
        cases mem_insertSorted lt keyf a x l h with
        | inl h2 => exact Or.inl h2
        | inr h2 => exact Or.inr (List.mem_cons_of_mem b h2)
    · intro hx
      cases List.mem_cons.mp hx with
      | inl h => exact Or.inl h
      | inr h => exact Or.inr h

theorem mem_sortByKey {α κ : Type} (lt : κ → κ → Bool) (keyf : α → κ)
    (x : α) : ∀ l, x ∈ sortByKey lt keyf l → x ∈ l
  | [] => by simp [sortByKey]
  | a :: l => by
    intro hx
    cases mem_insertSorted lt keyf a x _ hx with
    | inl h => rw [h]; exact List.mem_cons_self a l
    | inr h => exact List.mem_cons_of_mem a (mem_sortByKey lt keyf x l h)

theorem insertSorted_pairwise {α κ : Type} (lt : κ → κ → Bool)
    (keyf : α → κ)
    (hasym : ∀ p q, lt p q = true → lt q p = false)
    (hchain : ∀ p q r, lt p r = true → lt p q = true ∨ lt q r = true)
    (a : α) :
    ∀ l, List.Pairwise (fun x y => lt (keyf y) (keyf x) = false) l →
      List.Pairwise (fun x y => lt (keyf y) (keyf x) = false)
        (insertSorted lt keyf a l)
  | [] => by
    intro _
    simp [insertSorted]
  | b :: l => by
    intro hp
    rw [List.pairwise_cons] at hp
    obtain ⟨hb, hl⟩ := hp
    simp only [insertSorted]
    split
    next hcond =>
      rw [List.pairwise_cons]
      constructor
      · intro y hy
        cases mem_insertSorted lt keyf a y l hy with
        | inl he => rw [he]; exact hasym _ _ hcond
        | inr hm => exact hb y hm
      · exact insertSorted_pairwise lt keyf hasym hchain a l hl
    next hcond =>
      have hcond2 : lt (keyf b) (keyf a) = false := by
        revert hcond
        cases lt (keyf b) (keyf a) <;> simp
      rw [List.pairwise_cons]
      constructor
      · intro y hy
        cases List.mem_cons.mp hy with
        | inl he => rw [he]; exact hcond2
        | inr hm =>
          cases hya : lt (keyf y) (keyf a) with
          | false => rfl
          | true =>
            cases hchain (keyf y) (keyf b) (keyf a) hya with
            | inl h2 => rw [hb y hm] at h2; cases h2
            | inr h2 => rw [hcond2] at h2; cases h2
      · exact List.pairwise_cons.mpr ⟨hb, hl⟩

theorem sortByKey_pairwise {α κ : Type} (lt : κ → κ → Bool) (keyf : α → κ)
    (hasym : ∀ p q, lt p q = true → lt q p = false)
    (hchain : ∀ p q r, lt p r = true → lt p q = true ∨ lt q r = true) :
    ∀ l, List.Pairwise (fun x y => lt (keyf y) (keyf x) = false)
      (sortByKey lt keyf l)
  | [] => List.Pairwise.nil
  | a :: l =>
    insertSorted_pairwise lt keyf hasym hchain a (sortByKey lt keyf l)
      (sortByKey_pairwise lt keyf hasym hchain l)

theorem filter_insertSorted_neg {α κ : Type} (lt : κ → κ → Bool)
    (keyf : α → κ) (P : α → Bool) (a : α) (ha : P a = false) :
    ∀ l, (insertSorted lt keyf a l).filter P = l.filter P
  | [] => by simp [insertSorted, ha]
  | b :: l => by
    simp only [insertSorted]
    split
    · simp [List.filter_cons, filter_insertSorted_neg lt keyf P a ha l]
    · simp [List.filter_cons, ha]

theorem filter_insertSorted_pos {α κ : Type} (lt : κ → κ → Bool)
    (keyf : α → κ) (P : α → Bool) (a : α) (ha : P a = true)
    (hlt : ∀ y, P y = true → lt (keyf y) (keyf a) = false) :
    ∀ l, (insertSorted lt keyf a l).filter P = a :: l.filter P
  | [] => by simp [insertSorted, List.filter_cons, ha]
  | b :: l => by
    simp only [insertSorted]
    split
    next hcond =>
      have hpb : P b = false := by
        cases hPb : P b with
        | false => rfl
        | true => rw [hlt b hPb] at hcond; cases hcond
      simp [List.filter_cons, hpb,
        filter_insertSorted_pos lt keyf P a ha hlt l]
    next hcond =>
      simp [List.filter_cons, ha]

theorem filter_sortByKey {α κ : Type} (lt : κ → κ → Bool) (keyf : α → κ)
    (hirr : ∀ k, lt k k = false) (P : α → Bool)
    (htie : ∀ x y, P x = true → P y = true → keyf x = keyf y) :
    ∀ l, (sortByKey lt keyf l).filter P = l.filter P
  | [] => rfl
  | a :: l => by
    simp only [sortByKey]
    cases hPa : P a with
    | false =>
      rw [filter_insertSorted_neg lt keyf P a hPa,
        filter_sortByKey lt keyf hirr P htie l]
      simp [List.filter_cons, hPa]
    | true =>
      rw [filter_insertSorted_pos lt keyf P a hPa
        (fun y hPy => by rw [htie y a hPy hPa, hirr]),
        filter_sortByKey lt keyf hirr P htie l]
      simp [List.filter_cons, hPa]

/-! Small facts about the helpers of alphanum_key. -/

theorem pyIndex_natCast {α : Type} (l : List α) (n : Nat) :
    pyIndex l (n : Int) = l.get? n := by
  simp only [pyIndex]
  rw [if_neg (by omega : ¬((n : Int) < 0)),
    if_pos (by omega : (0 : Int) ≤ (n : Int))]
  simp

theorem intRange_eq_nil (a : Int) (n : Nat) (h : (n : Int) ≤ a) :
    intRange a n = [] := by
  unfold intRange
  rw [Int.toNat_of_nonpos (by omega), List.range_zero, List.map_nil]

theorem alphanum_key_oob (pos : Int) (st : Option Int) (r : List String)
    (h : pyIndex r pos = none) : alphanum_key pos st r = PyKey.int 0 := by
  unfold alphanum_key
  rw [h]

theorem alphanum_key_none_off (pos : Int) (r : List String) (f : String)
    (h : pyIndex r pos = some f) :
    alphanum_key pos none r = PyKey.list (subtokenList f) := by
  unfold alphanum_key
  rw [h]

theorem alphanum_key_in_range (pos : Int) (st : Int) (r : List String)
    (f : String) (h : pyIndex r pos = some f) :
    alphanum_key pos (some st) r =
      match readIndices (subtokenList f)
          (intRange st (subtokenList f).length) with
      | some vals => PyKey.list vals
      | none => PyKey.list (subtokenList f) := by
  unfold alphanum_key
  rw [h]

theorem alphanum_key_isList (pos : Int) (st : Option Int) (r : List String)
    (f : String) (h : pyIndex r pos = some f) :
    ∃ vs, alphanum_key pos st r = PyKey.list vs := by
  cases st with
  | none => exact ⟨_, alphanum_key_none_off pos r f h⟩
  | some s =>
    rw [alphanum_key_in_range pos s r f h]
    cases hr : readIndices (subtokenList f)
        (intRange s (subtokenList f).length) with
    | none => exact ⟨_, rfl⟩
    | some vals => exact ⟨vals, rfl⟩

/-- C1: natural sorting of the records ["item2"], ["item10"], ["item1"]
(each record carrying its string as the field at index 0) on field index
0 with subtoken offset 0 compares the embedded digit runs as integers
and returns the records in the order item1, item2, item10. -/
theorem C1_natural_order :
    natural_sort [["item2"], ["item10"], ["item1"]] 0 (some 0)
      = [["item1"], ["item2"], ["item10"]] := by decide

/-- C3 counterexample: the field "ab1" has two typed subtokens ("ab" and
1); with subtoken offset 3, strictly greater than that count,
alphanum_key returns the EMPTY key, which differs from the full typed
sequence (the value of the offset-free call), refuting the claim that
the offset is ignored. -/
theorem C3_counterexample :
    alphanum_key 0 (some 3) ["ab1"] = PyKey.list []
      ∧ alphanum_key 0 (some 3) ["ab1"] ≠ alphanum_key 0 none ["ab1"] := by
  decide

/-- C3 amended: for every record, natural field index in range, and
integer subtoken offset strictly greater than the number of typed
subtokens of that field, the key produced is the empty typed sequence
(the xrange is empty, so there is no failure, but the offset is not
ignored: the key is empty rather than the full sequence). -/
theorem C3_subtoken_overrun (key : List String) (pos : Nat)
    (h : pos < key.length) (st : Int)
    (hst : ((subtokenList (key.get ⟨pos, h⟩)).length : Int) < st) :
    alphanum_key pos (some st) key = PyKey.list [] := by
  have h1 : pyIndex key (pos : Int) = some (key.get ⟨pos, h⟩) := by
    rw [pyIndex_natCast key pos, List.get?_eq_get h]
  rw [alphanum_key_in_range (pos : Int) st key (key.get ⟨pos, h⟩) h1]
  rw [intRange_eq_nil st _ (by omega)]
  rfl

/-- C3 witness: the amended statement evaluated at the record ["ab1"],
field index 0 and offset 3. -/
theorem C3_witness :
    alphanum_key 0 (some 3) ["ab1"] = PyKey.list [] :=
  C3_subtoken_overrun ["ab1"] 0 (by decide) 3 (by decide)

/-- C4: evaluation of sort_subsort at an all-tokenized input.  The claim
says pre-tokenized field lists are sorted according to the spec, but
check_types flattens one level, so the token lists pass the string
check, the string branch is taken, and .split is called on a list: an
uncaught AttributeError, not a sort and not a logged no-op. -/
theorem C4_tokenized_crash :
    sort_subsort [Rec.toks ["b"], Rec.toks ["a"]] [SMapEntry.int 0]
        false ','
      = Except.error PyErr.attributeError := rfl

/-- C8: an out-of-range field index pos (pyIndex none) never raises in
natural_sort: the affected record's key is the explicit int 0 sentinel;
that sentinel compares keyLt-below every subtoken-list key (in
particular every well-formed non-empty one); the whole output of
natural_sort is sorted with respect to the key comparison; and in the
output a record whose field is missing never follows a record whose
field is present, so degraded records sort before all well-formed ones
while the rest is still sorted. -/
theorem C8_oob_minimal_sentinel (l : List (List String)) (pos : Int)
    (st : Option Int) :
    (∀ r : List String, pyIndex r pos = none →
        alphanum_key pos st r = PyKey.int 0)
      ∧ (∀ vs : List PyVal, keyLt (PyKey.int 0) (PyKey.list vs) = true)
      ∧ List.Pairwise (fun a b =>
          keyLt (alphanum_key pos st b) (alphanum_key pos st a) = false)
          (natural_sort l pos st)
      ∧ List.Pairwise (fun a b => pyIndex b pos = none →
          pyIndex a pos = (none : Option String))
          (natural_sort l pos st) := by
  refine ⟨fun r h => alphanum_key_oob pos st r h, fun vs => rfl, ?_, ?_⟩
  · exact sortByKey_pairwise keyLt (alphanum_key pos st) keyLt_asymm
      keyLt_chain l
  · refine (sortByKey_pairwise keyLt (alphanum_key pos st) keyLt_asymm
      keyLt_chain l).imp ?_
    intro a b hR hbnone
    cases ha : pyIndex a pos with
    | none => rfl
    | some f =>
      obtain ⟨vs, hv⟩ := alphanum_key_isList pos st a f ha
      rw [alphanum_key_oob pos st b hbnone, hv] at hR
      simp [keyLt] at hR

/-- C8 witness: the sentinel facts evaluated at the empty record, field
index 0, offset 0. -/
theorem C8_witness :
    alphanum_key 0 (some 0) ([] : List String) = PyKey.int 0
      ∧ keyLt (PyKey.int 0) (PyKey.list []) = true :=
  ⟨(C8_oob_minimal_sentinel [] 0 (some 0)).1 [] (by decide),
    (C8_oob_minimal_sentinel [] 0 (some 0)).2.1 []⟩

/-! Facts about splitChar and joinChar, for C5. -/

theorem splitChar_ne_nil (d : Char) : ∀ cs, splitChar d cs ≠ []
  | [] => by simp [splitChar]
  | c :: cs => by
    cases h : splitChar d cs with
    | nil => exact absurd h (splitChar_ne_nil d cs)
    | cons p ps =>
      simp only [splitChar, h]
      split <;> simp

theorem joinChar_cons_cons (d c : Char) (p : List Char) :
    ∀ ps, joinChar d ((c :: p) :: ps) = c :: joinChar d (p :: ps)
  | [] => rfl
  | _ :: _ => rfl

theorem joinChar_splitChar (d : Char) :
    ∀ cs, joinChar d (splitChar d cs) = cs
  | [] => rfl
  | c :: cs => by
    have ih := joinChar_splitChar d cs
    cases h : splitChar d cs with
    | nil => exact absurd h (splitChar_ne_nil d cs)
    | cons p ps =>
      rw [h] at ih
      simp only [splitChar, h]
      split
      next hc =>
        subst hc
        simp [joinChar, ih]
      next hc =>
        rw [joinChar_cons_cons d c p ps, ih]

theorem splitChar_no_delim (d : Char) :
    ∀ cs p, p ∈ splitChar d cs → d ∉ p
  | [] => by
    intro p hp
    simp [splitChar] at hp
    subst hp
    simp
  | c :: cs => by
    intro p hp
    cases h : splitChar d cs with
    | nil => exact absurd h (splitChar_ne_nil d cs)
    | cons q qs =>
      simp only [splitChar, h] at hp
      split at hp
      next hc =>
        cases List.mem_cons.mp hp with
        | inl he => subst he; simp
        | inr hm =>
          exact splitChar_no_delim d cs p (by rw [h]; exact hm)
      next hc =>
        cases List.mem_cons.mp hp with
        | inl he =>
          subst he
          intro hmem
          cases List.mem_cons.mp hmem with
          | inl hde => exact hc hde.symm
          | inr hdq =>
            exact splitChar_no_delim d cs q
              (by rw [h]; exact List.mem_cons_self q qs) hdq
        | inr hm =>
          exact splitChar_no_delim d cs p
            (by rw [h]; exact List.mem_cons_of_mem q hm)

/-- C5 counterexample: splitting the record "a, 1:01" on ',' yields the
field " 1:01" with its surrounding whitespace intact; the fields are
not trimmed as the claim states. -/
theorem C5_counterexample :
    pySplit ',' "a, 1:01" = ["a", " 1:01"]
      ∧ pySplit ',' "a, 1:01" ≠ ["a", "1:01"] := by decide

/-- C5 amended: splitting a string record on the delimiter yields the
exact delimiter-separated substrings with NO whitespace trimming: no
piece contains the delimiter, and joining the pieces back with the
delimiter restores the record verbatim (so " 1:01" stays " 1:01"; the
whitespace only vanishes from natural keys because key building strips
non-alphanumeric characters, while raw grouping values keep it). -/
theorem C5_split_exact (d : Char) (s : String) :
    joinChar d ((pySplit d s).map String.toList) = s.toList
      ∧ ∀ part ∈ pySplit d s, d ∉ part.toList := by
  constructor
  · show joinChar d
        (((splitChar d s.toList).map String.mk).map String.toList)
      = s.toList
    rw [List.map_map]
    have he : (String.toList ∘ String.mk) = id := by
      funext l
      rfl
    rw [he, List.map_id]
    exact joinChar_splitChar d s.toList
  · intro part hp
    obtain ⟨p, hpm, rfl⟩ := List.mem_map.mp hp
    show d ∉ (String.mk p).toList
    exact splitChar_no_delim d s.toList p hpm

/-- C5 witness: the amended statement evaluated at the record
"a, 1:01" with the comma delimiter and its field " 1:01". -/
theorem C5_witness :
    joinChar ',' ((pySplit ',' "a, 1:01").map String.toList)
        = "a, 1:01".toList
      ∧ ',' ∉ (" 1:01" : String).toList :=
  ⟨(C5_split_exact ',' "a, 1:01").1,
    (C5_split_exact ',' "a, 1:01").2 " 1:01" (by decide)⟩

/-! Reduction facts about sort_subsort, for C6, C7, C10. -/

theorem check_types_str_true (l : List Rec) : check_types_str l = true := by
  simp [check_types_str]

theorem splitAll_map_str (d : Char) : ∀ ss : List String,
    splitAll d (ss.map Rec.str) = some (ss.map (pySplit d))
  | [] => rfl
  | s :: rest => by simp [splitAll, splitAll_map_str d rest]

theorem normalize_bad_tup (sm : List SMapEntry) (ts : List Int)
    (hmem : SMapEntry.tup ts ∈ sm) (hlen : ts.length ≠ 2) :
    normalize_sort_map sm = none := by
  unfold normalize_sort_map
  have h1 : sm.all entryIsInt = false :=
    List.all_eq_false.mpr ⟨_, hmem, by simp [entryIsInt]⟩
  have h3 : sm.all entryLenOk = false :=
    List.all_eq_false.mpr ⟨_, hmem, by simp [entryLenOk, hlen]⟩
  rw [h1, h3]
  simp

/-- C7 counterexample: with a pre-tokenized record in the input, the
3-tuple sort_map [(0,0,0)] is never examined: the call crashes with an
uncaught AttributeError before the sort_map validation, so sort_subsort
does raise for some input lists. -/
theorem C7_counterexample :
    sort_subsort [Rec.toks ["a"]] [SMapEntry.tup [0, 0, 0]] false ','
      = Except.error PyErr.attributeError := rfl

/-- C7 amended: for every input list all of whose records are delimited
strings, calling sort_subsort without header and with a sort_map that
contains a tuple whose length is not 2 (such as [(0,0,0)]) returns the
input list unchanged; no exception is raised. -/
theorem C7_bad_tuple_degrade (ss : List String) (sm : List SMapEntry)
    (d : Char) (ts : List Int) (hmem : SMapEntry.tup ts ∈ sm)
    (hlen : ts.length ≠ 2) :
    sort_subsort (ss.map Rec.str) sm false d
      = Except.ok (ss.map Rec.str) := by
  cases ss with
  | nil => rfl
  | cons s rest =>
    show (sort_subsort_state (Rec.str s :: rest.map Rec.str) sm false d).1
      = _
    unfold sort_subsort_state
    simp only [check_types_str_true, if_true,
      normalize_bad_tup sm ts hmem hlen, Bool.false_eq_true, if_false]
    rw [show Rec.str s :: List.map Rec.str rest
      = List.map Rec.str (s :: rest) from rfl]
    rw [splitAll_map_str d (s :: rest)]

/-- C7 witness: the amended statement evaluated at the string records
["b", "a"] and the sort_map [(0,0,0)]. -/
theorem C7_witness :
    sort_subsort [Rec.str "b", Rec.str "a"] [SMapEntry.tup [0, 0, 0]]
        false ','
      = Except.ok [Rec.str "b", Rec.str "a"] :=
  C7_bad_tuple_degrade ["b", "a"] [SMapEntry.tup [0, 0, 0]] ','
    [0, 0, 0] (List.mem_cons_self _ _) (by decide)

/-- C6 counterexample: with header=True and the malformed sort spec
[(0,0,0)], sort_subsort pops the header "h" off and then returns the
mutated list on the degrade path, so the first element of the result is
"b", not the unmodified first input record — the claim fails for
malformed sort specs. -/
theorem C6_counterexample :
    sort_subsort [Rec.str "h", Rec.str "b"] [SMapEntry.tup [0, 0, 0]]
        true ','
      = Except.ok [Rec.str "b"]
      ∧ Rec.str "b" ≠ Rec.str "h" :=
  ⟨rfl, by decide⟩

/-- C6 amended: for a non-empty input list whose tail records are all
delimited strings, a sort spec that passes validation and a cascade
that hits no IndexError, sort_subsort with header=True returns the
original first record, unmodified, as the first element of the result,
and the rest of the output is computed from the tail alone (the header
is excluded from all comparisons); on the degrade paths the header is
instead dropped from the returned list, as the counterexample shows. -/
theorem C6_header_preserved (r0 : Rec) (ss : List String)
    (sm : List SMapEntry) (d : Char) (levels : List (Int × Int))
    (out : List (List String))
    (hnorm : normalize_sort_map sm = some levels)
    (hcas : cascade (ss.map (pySplit d)) levels = some out) :
    sort_subsort (r0 :: ss.map Rec.str) sm true d
      = Except.ok (r0 :: out.map (fun ts => Rec.str (joinComma ts))) := by
  show (sort_subsort_state (r0 :: ss.map Rec.str) sm true d).1 = _
  unfold sort_subsort_state
  simp only [check_types_str_true, if_true, splitAll_map_str, hnorm, hcas,
    List.singleton_append]

/-- C6 witness: the amended statement evaluated at the header "h", the
string records ["b", "a"] and the single-level sort spec [0]. -/
theorem C6_witness :
    sort_subsort [Rec.str "h", Rec.str "b", Rec.str "a"] [SMapEntry.int 0]
        true ','
      = Except.ok [Rec.str "h", Rec.str "a", Rec.str "b"] :=
  C6_header_preserved (Rec.str "h") ["b", "a"] [SMapEntry.int 0] ','
    [(0, 0)] [["a"], ["b"]] (by decide) (by decide)

/-- C10: with header=True and a non-empty argument, sort_subsort pops
the first element off the caller's list before any validation: after
the call the argument is the original tail on every path (success,
degrade, and the AttributeError raise), and on the malformed-sort_map
degrade path with an all-strings tail the returned "unchanged" list is
exactly this mutated tail, missing the header. -/
theorem C10_pop_mutation (l : List Rec) (sm : List SMapEntry) (d : Char)
    (hne : l ≠ []) :
    (sort_subsort_state l sm true d).2 = l.tail
      ∧ ((∃ ts, SMapEntry.tup ts ∈ sm ∧ ts.length ≠ 2) →
          (∃ ss : List String, l.tail = ss.map Rec.str) →
          (sort_subsort_state l sm true d).1 = Except.ok l.tail) := by
  cases l with
  | nil => exact absurd rfl hne
  | cons r0 rest =>
    constructor
    · show (sort_subsort_state (r0 :: rest) sm true d).2 = rest
      unfold sort_subsort_state
      simp only [check_types_str_true, if_true]
      cases hs : splitAll d rest with
      | none => rfl
      | some cur =>
        cases hn : normalize_sort_map sm with
        | none => rfl
        | some levels =>
          cases hc : cascade cur levels with
          | none => simp [hc]
          | some final => simp [hc]
    · rintro ⟨ts, hmem, hlen⟩ ⟨ss, hss⟩
      show (sort_subsort_state (r0 :: rest) sm true d).1 = Except.ok rest
      simp only [List.tail_cons] at hss
      subst hss
      unfold sort_subsort_state
      simp only [check_types_str_true, if_true, splitAll_map_str,
        normalize_bad_tup sm ts hmem hlen]

/-- C10 witness: the mutation fact evaluated at the list
["h", "b"] (as string records) and the sort_map [(0,0,0)]. -/
theorem C10_witness :
    (sort_subsort_state [Rec.str "h", Rec.str "b"]
        [SMapEntry.tup [0, 0, 0]] true ',').2 = [Rec.str "b"]
      ∧ (sort_subsort_state [Rec.str "h", Rec.str "b"]
          [SMapEntry.tup [0, 0, 0]] true ',').1
        = Except.ok [Rec.str "b"] :=
  ⟨(C10_pop_mutation [Rec.str "h", Rec.str "b"] [SMapEntry.tup [0, 0, 0]]
      ',' (by decide)).1,
    (C10_pop_mutation [Rec.str "h", Rec.str "b"] [SMapEntry.tup [0, 0, 0]]
      ',' (by decide)).2 ⟨[0, 0, 0], List.mem_cons_self _ _, by decide⟩
      ⟨["b"], rfl⟩⟩

/-! Facts about quicksort, for C9. -/

theorem quicksort_cons₂ (x y : Int) (rest : List Int) :
    quicksort (x :: y :: rest)
      = quicksort ((x :: y :: rest).filter (fun z => decide (z < x)))
        ++ (x :: y :: rest).filter (fun z => decide (z = x))
        ++ quicksort ((x :: y :: rest).filter (fun z => decide (x < z))) := by
  simp only [quicksort]

theorem three_way_perm (x : Int) (l : List Int) :
    ((l.filter (fun z => decide (z < x)) ++ l.filter (fun z => decide (z = x)))
      ++ l.filter (fun z => decide (x < z))).Perm l := by
  have h1 := List.filter_append_perm (fun z => decide (z < x)) l
  have h2 := List.filter_append_perm (fun z => decide (z = x))
    (l.filter (fun z => !decide (z < x)))
  rw [List.filter_filter, List.filter_filter] at h2
  have e1 : ∀ a : Int, (decide (a = x) && !decide (a < x)) = decide (a = x) := by
    intro a
    by_cases h : a = x
    · subst h
      simp
    · simp [h]
  have e2 : ∀ a : Int, (!decide (a = x) && !decide (a < x)) = decide (x < a) := by
    intro a
    by_cases h1 : a = x
    · subst h1
      simp
    · by_cases h2 : a < x
      · have h3 : ¬x < a := by omega
        simp [h1, h2, h3]
      · have h3 : x < a := by omega
        simp [h1, h2, h3]
  rw [List.filter_congr (fun a _ => e1 a),
    List.filter_congr (fun a _ => e2 a)] at h2
  rw [List.append_assoc]
  exact ((List.Perm.refl _).append h2).trans h1

theorem quicksort_perm : ∀ l : List Int, (quicksort l).Perm l := by
  intro l
  induction l using quicksort.induct with
  | case1 => simp [quicksort]
  | case2 x => simp [quicksort]
  | case3 x y rest ih1 ih2 =>
    rw [quicksort_cons₂]
    exact ((ih1.append (List.Perm.refl _)).append ih2).trans
      (three_way_perm x (x :: y :: rest))

theorem sorted_of_all_eq (x : Int) : ∀ m : List Int,
    (∀ z ∈ m, z = x) → m.Sorted (· ≤ ·)
  | [] => fun _ => List.sorted_nil
  | a :: m => fun h => by
    rw [List.sorted_cons]
    refine ⟨fun b hb => ?_, sorted_of_all_eq x m
      (fun z hz => h z (List.mem_cons_of_mem a hz))⟩
    rw [h a (List.mem_cons_self a m), h b (List.mem_cons_of_mem a hb)]

theorem quicksort_sorted : ∀ l : List Int, (quicksort l).Sorted (· ≤ ·) := by
  intro l
  induction l using quicksort.induct with
  | case1 => simp [quicksort]
  | case2 x => simp [quicksort]
  | case3 x y rest ih1 ih2 =>
    rw [quicksort_cons₂]
    have hpA := quicksort_perm
      ((x :: y :: rest).filter (fun z => decide (z < x)))
    have hpC := quicksort_perm
      ((x :: y :: rest).filter (fun z => decide (x < z)))
    have hmA : ∀ a ∈ quicksort
        ((x :: y :: rest).filter (fun z => decide (z < x))), a < x := by
      intro a ha
      have := List.of_mem_filter (hpA.mem_iff.mp ha)
      simpa using this
    have hmC : ∀ c ∈ quicksort
        ((x :: y :: rest).filter (fun z => decide (x < z))), x < c := by
      intro c hc
      have := List.of_mem_filter (hpC.mem_iff.mp hc)
      simpa using this
    have hmB : ∀ b ∈ (x :: y :: rest).filter (fun z => decide (z = x)),
        b = x := by
      intro b hb
      have := List.of_mem_filter hb
      simpa using this
    show List.Pairwise (· ≤ ·) _
    rw [List.pairwise_append, List.pairwise_append]
    refine ⟨⟨ih1, sorted_of_all_eq x _ hmB, ?_⟩, ih2, ?_⟩
    · intro a ha b hb
      have h1 := hmA a ha
      have h2 := hmB b hb
      omega
    · intro a ha c hc
      have h2 := hmC c hc
      cases List.mem_append.mp ha with
      | inl h => have h1 := hmA a h; omega
      | inr h => have h1 := hmB a h; omega

/-- C9: quicksort sorts any list of integers into non-decreasing order
and preserves the multiset of elements (its output is a permutation of
its input), by first-element pivot and three-way partition; on the
spec's example it returns quicksort [3,1,2,3,1] = [1,1,2,3,3]. -/
theorem C9_quicksort_correct :
    (∀ l : List Int, (quicksort l).Sorted (· ≤ ·) ∧ (quicksort l).Perm l)
      ∧ quicksort [3, 1, 2, 3, 1] = [1, 1, 2, 3, 3] := by
  refine ⟨fun l => ⟨quicksort_sorted l, quicksort_perm l⟩, ?_⟩
  refine List.eq_of_perm_of_sorted ?_ (quicksort_sorted _) (by decide)
  exact (quicksort_perm _).trans (by decide)

/-! Facts about grouping, for the stability analysis of C2.  A signature
class is tracked through a regrouping pass by a Boolean predicate P on
records; the central quantity is the concatenation, over the built
groups, of the P-filtered members of the group keyed v. -/

theorem gfields_eq_dropLast :
    ∀ (rest : List (Int × Int)) (prep : Int),
      gfields prep rest = (prep :: rest.map Prod.fst).dropLast
  | [], _ => rfl
  | (p, s) :: rest, prep => by
    simp only [gfields, List.map_cons, List.dropLast_cons₂]
    rw [gfields_eq_dropLast rest p]

theorem addToGroups_keys (k : String) (line : List String) :
    ∀ acc : List (String × List (List String)),
      (addToGroups k line acc).map Prod.fst
        = if k ∈ acc.map Prod.fst then acc.map Prod.fst
          else acc.map Prod.fst ++ [k]
  | [] => by simp [addToGroups]
  | (k2, g) :: rest => by
    simp only [addToGroups]
    split
    next he =>
      subst he
      simp
    next he =>
      simp only [List.map_cons, addToGroups_keys k line rest,
        List.mem_cons]
      have hne : ¬(k = k2) := fun h => he h.symm
      by_cases hmem : k ∈ rest.map Prod.fst
      · simp [hmem, hne]
      · simp [hmem, hne]

theorem addToGroups_nodup (k : String) (line : List String)
    (acc : List (String × List (List String)))
    (h : (acc.map Prod.fst).Nodup) :
    ((addToGroups k line acc).map Prod.fst).Nodup := by
  rw [addToGroups_keys]
  split
  · exact h
  next hmem =>
    rw [List.nodup_append]
    exact ⟨h, List.nodup_singleton k,
      fun a ha hb => hmem (by simp at hb; rw [← hb]; exact ha)⟩

theorem addToGroups_raw (prep : Int) (k : String) (line : List String)
    (hline : pyIndex line prep = some k) :
    ∀ acc : List (String × List (List String)),
      (∀ e ∈ acc, ∀ r ∈ e.2, pyIndex r prep = some e.1) →
      ∀ e ∈ addToGroups k line acc, ∀ r ∈ e.2, pyIndex r prep = some e.1
  | [] => by
    intro _ e he r hr
    simp [addToGroups] at he
    subst he
    simp at hr
    subst hr
    exact hline
  | (k2, g) :: rest => by
    intro hacc e he r hr
    simp only [addToGroups] at he
    split at he
    next heq =>
      subst heq
      cases List.mem_cons.mp he with
      | inl h2 =>
        subst h2
        cases List.mem_append.mp hr with
        | inl h3 => exact hacc (k2, g) (List.mem_cons_self _ _) r h3
        | inr h3 =>
          simp at h3
          subst h3
          exact hline
      | inr h2 =>
        exact hacc e (List.mem_cons_of_mem _ h2) r hr
    next heq =>
      cases List.mem_cons.mp he with
      | inl h2 =>
        subst h2
        exact hacc (k2, g) (List.mem_cons_self _ _) r hr
      | inr h2 =>
        exact addToGroups_raw prep k line hline rest
          (fun e2 he2 => hacc e2 (List.mem_cons_of_mem _ he2)) e h2 r hr

theorem flatten_class_nil (v : String) (P : List String → Bool) :
    ∀ gs : List (String × List (List String)),
      v ∉ gs.map Prod.fst →
      ((gs.map (fun e => if e.1 = v then e.2.filter P else [])).flatten
        : List (List String)) = []
  | [] => fun _ => rfl
  | (k, g) :: gs => fun hv => by
    simp only [List.map_cons, List.flatten_cons]
    rw [if_neg (fun h => hv (by simp [h])),
      flatten_class_nil v P gs (fun h => hv (List.mem_cons_of_mem _ h))]
    rfl

theorem addToGroups_class (v : String) (P : List String → Bool)
    (k : String) (line : List String) :
    ∀ acc : List (String × List (List String)),
      (acc.map Prod.fst).Nodup →
      ((addToGroups k line acc).map
          (fun e => if e.1 = v then e.2.filter P else [])).flatten
        = (acc.map
            (fun e => if e.1 = v then e.2.filter P else [])).flatten
          ++ (if k = v then (if P line then [line] else []) else [])
  | [] => fun _ => by
    simp only [addToGroups, List.map_cons, List.map_nil,
      List.flatten_cons, List.flatten_nil, List.nil_append,
      List.append_nil]
    by_cases hkv : k = v
    · rw [if_pos hkv, if_pos hkv, List.filter_cons]
      cases hP : P line <;> simp
    · rw [if_neg hkv, if_neg hkv]
  | (k2, g) :: rest => fun hnd => by
    simp only [addToGroups]
    split
    next heq =>
      subst heq
      simp only [List.map_cons, List.flatten_cons]
      by_cases hkv : k2 = v
      · subst hkv
        have hvrest : k2 ∉ rest.map Prod.fst := by
          simp only [List.map_cons, List.nodup_cons] at hnd
          exact hnd.1
        rw [flatten_class_nil k2 P rest hvrest]
        cases hP : P line <;>
          simp [List.filter_append, List.filter_cons, hP]
      · simp [hkv]
    next heq =>
      simp only [List.map_cons, List.flatten_cons]
      rw [addToGroups_class v P k line rest (by
        simp only [List.map_cons, List.nodup_cons] at hnd
        exact hnd.2)]
      rw [List.append_assoc]

theorem buildGroupsAux_class (prep : Int) (v : String)
    (P : List String → Bool)
    (hv : ∀ y : List String, P y = true → pyIndex y prep = some v) :
    ∀ (cur : List (List String))
      (acc gs : List (String × List (List String))),
      buildGroupsAux prep acc cur = some gs →
      (acc.map Prod.fst).Nodup →
      (gs.map (fun e => if e.1 = v then e.2.filter P else [])).flatten
        = (acc.map
            (fun e => if e.1 = v then e.2.filter P else [])).flatten
          ++ cur.filter P
  | [] => fun acc gs hb hn => by
    simp only [buildGroupsAux] at hb
    injection hb with hb
    subst hb
    simp
  | line :: rest => fun acc gs hb hn => by
    cases hpi : pyIndex line prep with
    | none =>
      simp only [buildGroupsAux, hpi] at hb
      exact Option.noConfusion hb
    | some k =>
      simp only [buildGroupsAux, hpi] at hb
      have ih := buildGroupsAux_class prep v P hv rest
        (addToGroups k line acc) gs hb (addToGroups_nodup k line acc hn)
      rw [ih, addToGroups_class v P k line acc hn, List.append_assoc]
      congr 1
      rw [List.filter_cons]
      cases hP : P line with
      | true =>
        have hkv : k = v := by
          have h2 := hv line hP
          rw [hpi] at h2
          injection h2
        subst hkv
        simp [hP]
      | false =>
        simp only [Bool.false_eq_true, if_false]
        by_cases hkv : k = v
        · simp [hkv]
        · simp [hkv]

theorem buildGroupsAux_raw (prep : Int) :
    ∀ (cur : List (List String))
      (acc gs : List (String × List (List String))),
      buildGroupsAux prep acc cur = some gs →
      (∀ e ∈ acc, ∀ r ∈ e.2, pyIndex r prep = some e.1) →
      ∀ e ∈ gs, ∀ r ∈ e.2, pyIndex r prep = some e.1
  | [] => fun acc gs hb hacc => by
    simp only [buildGroupsAux] at hb
    injection hb with hb
    subst hb
    exact hacc
  | line :: rest => fun acc gs hb hacc => by
    cases hpi : pyIndex line prep with
    | none =>
      simp only [buildGroupsAux, hpi] at hb
      exact Option.noConfusion hb
    | some k =>
      simp only [buildGroupsAux, hpi] at hb
      exact buildGroupsAux_raw prep rest (addToGroups k line acc) gs hb
        (addToGroups_raw prep k line hpi acc hacc)

theorem buildGroupsAux_mem_some (prep : Int) :
    ∀ (cur : List (List String))
      (acc gs : List (String × List (List String))),
      buildGroupsAux prep acc cur = some gs →
      ∀ r ∈ cur, ∃ k, pyIndex r prep = some k
  | [] => fun _ _ _ r hr => absurd hr (List.not_mem_nil r)
  | line :: rest => fun acc gs hb r hr => by
    cases hpi : pyIndex line prep with
    | none =>
      simp only [buildGroupsAux, hpi] at hb
      exact Option.noConfusion hb
    | some k =>
      simp only [buildGroupsAux, hpi] at hb
      cases List.mem_cons.mp hr with
      | inl h => exact ⟨k, by rw [h]; exact hpi⟩
      | inr h =>
        exact buildGroupsAux_mem_some prep rest
          (addToGroups k line acc) gs hb r h

theorem regroup_filter (prep p s : Int) (P : List String → Bool)
    (hv : ∀ x y, P x = true → P y = true →
      pyIndex x prep = pyIndex y prep)
    (hkey : ∀ x y, P x = true → P y = true →
      alphanum_key p (some s) x = alphanum_key p (some s) y)
    (cur : List (List String)) (gs : List (String × List (List String)))
    (hb : buildGroups prep cur = some gs) :
    ((gs.map (fun e => natural_sort e.2 p (some s))).flatten).filter P
      = cur.filter P := by
  have hraw : ∀ e ∈ gs, ∀ r ∈ e.2, pyIndex r prep = some e.1 :=
    buildGroupsAux_raw prep cur [] gs hb (by intro e he; simp at he)
  have hsome : ∀ r ∈ cur, ∃ k, pyIndex r prep = some k :=
    buildGroupsAux_mem_some prep cur [] gs hb
  by_cases hex : ∃ x0, P x0 = true ∧ ∃ v, pyIndex x0 prep = some v
  case pos =>
    obtain ⟨x0, hx0, v, hvx⟩ := hex
    have hvall : ∀ y, P y = true → pyIndex y prep = some v := by
      intro y hy
      rw [hv y x0 hy hx0, hvx]
    have step1 :
        ((gs.map (fun e => natural_sort e.2 p (some s))).flatten).filter P
          = (gs.map
              (fun e => (natural_sort e.2 p (some s)).filter P)).flatten := by
      rw [List.filter_flatten, List.map_map]
      rfl
    have hpw : ∀ e ∈ gs, (natural_sort e.2 p (some s)).filter P
        = if e.1 = v then e.2.filter P else [] := by
      intro e he
      by_cases hkv : e.1 = v
      · rw [if_pos hkv]
        exact filter_sortByKey keyLt (alphanum_key p (some s))
          keyLt_irrefl P hkey e.2
      · rw [if_neg hkv]
        refine List.filter_eq_nil_iff.mpr ?_
        intro a ha hPa
        have hae : a ∈ e.2 := mem_sortByKey keyLt _ a e.2 ha
        have h1 := hraw e he a hae
        have h2 := hvall a hPa
        rw [h1] at h2
        injection h2 with h2
        exact hkv h2
    rw [step1, List.map_congr_left hpw,
      buildGroupsAux_class prep v P hvall cur [] gs hb List.nodup_nil]
    simp
  case neg =>
    have h1 :
        ((gs.map (fun e => natural_sort e.2 p (some s))).flatten).filter P
          = [] := by
      refine List.filter_eq_nil_iff.mpr ?_
      intro a ha hPa
      obtain ⟨l2, hl2, hal⟩ := List.mem_flatten.mp ha
      obtain ⟨e, he, rfl⟩ := List.mem_map.mp hl2
      have hae : a ∈ e.2 := mem_sortByKey keyLt _ a e.2 hal
      exact hex ⟨a, hPa, e.1, hraw e he a hae⟩
    have h2 : cur.filter P = [] := by
      refine List.filter_eq_nil_iff.mpr ?_
      intro r hr hPr
      obtain ⟨k, hk⟩ := hsome r hr
      exact hex ⟨r, hPr, k, hk⟩
    rw [h1, h2]

theorem cascadeAux_filter (P : List String → Bool) :
    ∀ (rest : List (Int × Int)) (prep : Int)
      (cur out : List (List String)),
      (∀ pq ∈ rest, ∀ x y, P x = true → P y = true →
        alphanum_key pq.1 (some pq.2) x = alphanum_key pq.1 (some pq.2) y) →
      (∀ pf ∈ gfields prep rest, ∀ x y, P x = true → P y = true →
        pyIndex x pf = pyIndex y pf) →
      cascadeAux cur prep rest = some out →
      out.filter P = cur.filter P
  | [] => fun prep cur out _ _ hc => by
    simp only [cascadeAux] at hc
    injection hc with hc
    rw [hc]
  | (p, s) :: rest => fun prep cur out hk hg hc => by
    cases hb : buildGroups prep cur with
    | none =>
      simp only [cascadeAux, hb] at hc
      exact Option.noConfusion hc
    | some gs =>
      simp only [cascadeAux, hb] at hc
      have ih := cascadeAux_filter P rest p
        ((gs.map (fun e => natural_sort e.2 p (some s))).flatten) out
        (fun pq hpq => hk pq (List.mem_cons_of_mem _ hpq))
        (fun pf hpf => hg pf (List.mem_cons_of_mem _ hpf))
        hc
      rw [ih]
      exact regroup_filter prep p s P
        (hg prep (by simp [gfields]))
        (hk (p, s) (List.mem_cons_self _ _))
        cur gs hb

theorem cascadeAux_nil : ∀ (rest : List (Int × Int)) (prep : Int),
    cascadeAux [] prep rest = some []
  | [], _ => rfl
  | (p, _) :: rest, _ => cascadeAux_nil rest p

theorem cascade_nil : ∀ levels : List (Int × Int),
    cascade [] levels = some []
  | [] => rfl
  | (p, _) :: rest => cascadeAux_nil rest p

theorem normalize_tup_pairs : ∀ levels : List (Int × Int),
    normalize_sort_map (levels.map (fun t => SMapEntry.tup [t.1, t.2]))
      = some levels
  | [] => rfl
  | t :: rest => by
    unfold normalize_sort_map
    have h1 : ((t :: rest).map
        (fun t => SMapEntry.tup [t.1, t.2])).all entryIsInt = false := by
      simp [entryIsInt]
    have h2 : ((t :: rest).map
        (fun t => SMapEntry.tup [t.1, t.2])).all entryIsTup = true := by
      rw [List.all_eq_true]
      intro x hx
      obtain ⟨a, _, rfl⟩ := List.mem_map.mp hx
      rfl
    have h3 : ((t :: rest).map
        (fun t => SMapEntry.tup [t.1, t.2])).all entryLenOk = true := by
      rw [List.all_eq_true]
      intro x hx
      obtain ⟨a, _, rfl⟩ := List.mem_map.mp hx
      rfl
    rw [if_neg (by intro h; rw [h1] at h; exact Bool.false_ne_true h),
      if_pos h2, if_pos h3, List.map_map]
    have he : (tupEntryPair ∘ fun t : Int × Int => SMapEntry.tup [t.1, t.2])
        = id := by
      funext a
      cases a
      rfl
    rw [he, List.map_id]

/-- C2 counterexample: the records "a1" (input index 1) and "a01" (input
index 2) tie on the natural key at every level of the well-formed spec
[(0,0),(0,0)] (both keys are the list ["a", 1]), yet the output reorders
them: the second level groups on the raw field value, which differs
("a1" versus "a01"), the group of "a01" was seen first, and the whole
"a01" group is emitted before the "a1" group. -/
theorem C2_counterexample :
    sort_subsort [Rec.str "a01", Rec.str "a1", Rec.str "a01"]
        [SMapEntry.tup [0, 0], SMapEntry.tup [0, 0]] false ','
      = Except.ok [Rec.str "a01", Rec.str "a01", Rec.str "a1"]
      ∧ alphanum_key 0 (some 0) ["a1"] = alphanum_key 0 (some 0) ["a01"] :=
  ⟨rfl, by decide⟩

/-- C2 amended: stability holds for the records of a class that agrees
both on the natural key of every configured sort level and on the RAW
field value at every grouping field (each level's field except the
last).  For every Boolean class predicate P with those two tie
properties, the subsequence of P-records is preserved, in order and
multiplicity, from the input to the output of the cascade — and
sort_subsort on homogeneous string records with the corresponding
well-formed tuple spec returns exactly the comma-joined cascade output
(or the parsed input unchanged if the cascade aborts), so the tied
records appear in the output in their input order.  Without the
raw-value agreement the property fails (see the counterexample). -/
theorem C2_stability_on_classes (levels : List (Int × Int))
    (P : List String → Bool)
    (hk : ∀ pq ∈ levels, ∀ x y, P x = true → P y = true →
      alphanum_key pq.1 (some pq.2) x = alphanum_key pq.1 (some pq.2) y)
    (hg : ∀ pf ∈ (levels.map Prod.fst).dropLast, ∀ x y,
      P x = true → P y = true → pyIndex x pf = pyIndex y pf) :
    (∀ l out, cascade l levels = some out → out.filter P = l.filter P)
      ∧ (∀ (ss : List String) (d : Char),
          sort_subsort (ss.map Rec.str)
              (levels.map (fun t => SMapEntry.tup [t.1, t.2])) false d
            = Except.ok (match cascade (ss.map (pySplit d)) levels with
                | some out => out.map (fun ts => Rec.str (joinComma ts))
                | none => ss.map Rec.str)) := by
  constructor
  · intro l out hc
    cases levels with
    | nil =>
      simp only [cascade] at hc
      injection hc with hc
      rw [hc]
    | cons t rest =>
      obtain ⟨p, s⟩ := t
      simp only [cascade] at hc
      have h1 := cascadeAux_filter P rest p (natural_sort l p (some s)) out
        (fun pq hpq => hk pq (List.mem_cons_of_mem _ hpq))
        (fun pf hpf => hg pf (by
          rw [gfields_eq_dropLast rest p] at hpf
          exact hpf))
        hc
      rw [h1]
      exact filter_sortByKey keyLt (alphanum_key p (some s)) keyLt_irrefl P
        (hk (p, s) (List.mem_cons_self _ _)) l
  · intro ss d
    cases ss with
    | nil =>
      show (sort_subsort_state [] _ false d).1 = _
      simp only [List.map_nil, cascade_nil]
      rfl
    | cons s rest =>
      show (sort_subsort_state (Rec.str s :: rest.map Rec.str)
        _ false d).1 = _
      unfold sort_subsort_state
      simp only [check_types_str_true, if_true, normalize_tup_pairs,
        Bool.false_eq_true, if_false]
      rw [show Rec.str s :: List.map Rec.str rest
        = List.map Rec.str (s :: rest) from rfl,
        splitAll_map_str d (s :: rest)]
      cases hc : cascade ((s :: rest).map (pySplit d)) levels with
      | none =>
        simp only [List.map_cons] at hc
        simp [hc]
      | some out =>
        simp only [List.map_cons] at hc
        simp [hc]

/-- C2 witness: the amended statement evaluated at the single-level
spec [(0,0)] and the class of the record ["item1"]: the class
subsequence is preserved through the cascade on [["item2"], ["item1"]].
-/
theorem C2_witness :
    ([["item1"], ["item2"]] : List (List String)).filter
        (fun r => decide (r = ["item1"]))
      = ([["item2"], ["item1"]] : List (List String)).filter
          (fun r => decide (r = ["item1"])) := by
  have h := (C2_stability_on_classes [(0, 0)]
    (fun r => decide (r = ["item1"]))
    (by
      intro pq hpq x y hx hy
      rw [of_decide_eq_true hx, of_decide_eq_true hy])
    (by
      intro pf hpf
      simp at hpf)).1
    [["item2"], ["item1"]] [["item1"], ["item2"]] (by decide)
  exact h

end SortingTools
